import Mathlib

/-!
A verification development for the template instantiation engine of
`src/bootstrap_project/__main__.py`.

The Python source is shallowly embedded: pure fragments become Lean
functions, file contents are modelled as their character lists, parsed
YAML documents as an inductive `Yaml` value, and fallible loaders as
`Except` values.  Python string methods (`str.title`, `str.capitalize`,
`str.replace`, substring tests) are modelled with their documented
semantics restricted to ASCII text, which is the domain the program uses
them on (snake_case project and template names, template files).
-/

/-- The `FeatureNames` enum of the source (`base`, `cli`, `textual`, `par-ai-core`). -/
inductive FeatureNames where
  | BASE
  | CLI
  | TEXTUAL
  | PARAI
deriving DecidableEq, Repr, Fintype

/-- The static `feature_deps` dict.  `none` models a feature that is not a key
of the dict (only `BASE`); the resolver's `if feature in feature_deps` guard
skips such features. -/
def feature_deps : FeatureNames → Option (List FeatureNames)
  | .CLI => some [.BASE]
  | .TEXTUAL => some [.BASE, .CLI]
  | .PARAI => some [.BASE]
  | .BASE => none

/-- The direct-dependency list of a feature: the dict entry, or `[]` when the
feature is not a key of `feature_deps`. -/
def depList (f : FeatureNames) : List FeatureNames := (feature_deps f).getD []

/-- `dependsOn a b`: `b` is a direct dependency of `a` in the static graph. -/
def dependsOn (a b : FeatureNames) : Prop := b ∈ depList a

instance : DecidableRel dependsOn :=
  fun a b => inferInstanceAs (Decidable (b ∈ depList a))

/-- The body of `for dep in feature_deps[feature]` inside
`resolve_feature_dependencies`: every direct dependency not yet in `resolved`
is added to `resolved` and appended to the work queue. -/
def addDeps : List FeatureNames → Finset FeatureNames → List FeatureNames →
    Finset FeatureNames × List FeatureNames
  | [], resolved, queue => (resolved, queue)
  | d :: ds, resolved, queue =>
    if d ∈ resolved then addDeps ds resolved queue
    else addDeps ds (insert d resolved) (queue ++ [d])

theorem addDeps_measure (ds : List FeatureNames) (resolved : Finset FeatureNames)
    (queue : List FeatureNames) :
    (addDeps ds resolved queue).2.length
        + (Fintype.card FeatureNames - (addDeps ds resolved queue).1.card)
      = queue.length + (Fintype.card FeatureNames - resolved.card) := by
  induction ds generalizing resolved queue with
  | nil => rfl
  | cons d ds ih =>
    by_cases hd : d ∈ resolved
    · simpa [addDeps, hd] using ih resolved queue
    · have hcard : (insert d resolved).card = resolved.card + 1 :=
        Finset.card_insert_of_not_mem hd
      have hle : (insert d resolved).card ≤ Fintype.card FeatureNames :=
        Finset.card_le_univ _
      have h := ih (insert d resolved) (queue ++ [d])
      simp only [addDeps, hd, if_neg, ite_false] at *
      simp only [List.length_append, List.length_cons, List.length_nil] at h ⊢
      omega

theorem addDeps_subset (ds : List FeatureNames) (resolved : Finset FeatureNames)
    (queue : List FeatureNames) : resolved ⊆ (addDeps ds resolved queue).1 := by
  induction ds generalizing resolved queue with
  | nil => exact fun x hx => hx
  | cons d ds ih =>
    by_cases hd : d ∈ resolved
    · simpa [addDeps, hd] using ih resolved queue
    · simp only [addDeps, hd, ite_false]
      exact fun x hx => ih _ _ (Finset.mem_insert_of_mem hx)

theorem addDeps_queue_mono (ds : List FeatureNames) (resolved : Finset FeatureNames)
    (queue : List FeatureNames) : ∀ y ∈ queue, y ∈ (addDeps ds resolved queue).2 := by
  induction ds generalizing resolved queue with
  | nil => exact fun y hy => hy
  | cons d ds ih =>
    intro y hy
    by_cases hd : d ∈ resolved
    · simpa [addDeps, hd] using ih resolved queue y hy
    · simp only [addDeps, hd, ite_false]
      exact ih _ _ y (List.mem_append_left _ hy)

theorem addDeps_deps_mem (ds : List FeatureNames) (resolved : Finset FeatureNames)
    (queue : List FeatureNames) : ∀ d ∈ ds, d ∈ (addDeps ds resolved queue).1 := by
  induction ds generalizing resolved queue with
  | nil => intro d hd; cases hd
  | cons d ds ih =>
    intro x hx
    by_cases hd : d ∈ resolved
    · simp only [addDeps, hd, ite_true]
      rcases List.mem_cons.mp hx with hxd | hxs
      · exact hxd ▸ addDeps_subset ds resolved queue hd
      · exact ih resolved queue x hxs
    · simp only [addDeps, hd, ite_false]
      rcases List.mem_cons.mp hx with hxd | hxs
      · exact addDeps_subset ds _ _ (hxd ▸ Finset.mem_insert_self d resolved)
      · exact ih _ _ x hxs

theorem addDeps_new_in_queue (ds : List FeatureNames) (resolved : Finset FeatureNames)
    (queue : List FeatureNames) :
    ∀ x ∈ (addDeps ds resolved queue).1, x ∈ resolved ∨ x ∈ (addDeps ds resolved queue).2 := by
  induction ds generalizing resolved queue with
  | nil => exact fun x hx => Or.inl hx
  | cons d ds ih =>
    intro x hx
    by_cases hd : d ∈ resolved
    · simp only [addDeps, hd, ite_true] at hx ⊢
      exact ih resolved queue x hx
    · simp only [addDeps, hd, ite_false] at hx ⊢
      rcases ih _ _ x hx with hx' | hx'
      · rcases Finset.mem_insert.mp hx' with hxd | hxr
        · subst hxd
          exact Or.inr (addDeps_queue_mono ds _ _ x
            (List.mem_append_right queue (List.mem_singleton_self x)))
        · exact Or.inl hxr
      · exact Or.inr hx'

theorem addDeps_result_from (ds : List FeatureNames) (resolved : Finset FeatureNames)
    (queue : List FeatureNames) :
    ∀ x ∈ (addDeps ds resolved queue).1, x ∈ resolved ∨ x ∈ ds := by
  induction ds generalizing resolved queue with
  | nil => exact fun x hx => Or.inl hx
  | cons d ds ih =>
    intro x hx
    by_cases hd : d ∈ resolved
    · simp only [addDeps, hd, ite_true] at hx
      rcases ih resolved queue x hx with h | h
      · exact Or.inl h
      · exact Or.inr (List.mem_cons_of_mem d h)
    · simp only [addDeps, hd, ite_false] at hx
      rcases ih _ _ x hx with h | h
      · rcases Finset.mem_insert.mp h with h' | h'
        · exact Or.inr (h' ▸ List.mem_cons_self d ds)
        · exact Or.inl h'
      · exact Or.inr (List.mem_cons_of_mem d h)

theorem addDeps_queue_from (ds : List FeatureNames) (resolved : Finset FeatureNames)
    (queue : List FeatureNames) :
    ∀ y ∈ (addDeps ds resolved queue).2, y ∈ queue ∨ y ∈ ds := by
  induction ds generalizing resolved queue with
  | nil => exact fun y hy => Or.inl hy
  | cons d ds ih =>
    intro y hy
    by_cases hd : d ∈ resolved
    · simp only [addDeps, hd, ite_true] at hy
      rcases ih resolved queue y hy with h | h
      · exact Or.inl h
      · exact Or.inr (List.mem_cons_of_mem d h)
    · simp only [addDeps, hd, ite_false] at hy
      rcases ih _ _ y hy with h | h
      · rcases List.mem_append.mp h with h' | h'
        · exact Or.inl h'
        · exact Or.inr (List.mem_cons.mpr (Or.inl (List.mem_singleton.mp h')))
      · exact Or.inr (List.mem_cons_of_mem d h)

/-- The `while to_process:` loop of `resolve_feature_dependencies`: pop the
front feature; when it is a key of `feature_deps`, fold its dependency list
through `addDeps`. -/
def resolveLoop (resolved : Finset FeatureNames) (to_process : List FeatureNames) :
    Finset FeatureNames :=
  match to_process with
  | [] => resolved
  | f :: rest =>
    match feature_deps f with
    | none => resolveLoop resolved rest
    | some ds => resolveLoop (addDeps ds resolved rest).1 (addDeps ds resolved rest).2
termination_by to_process.length + (Fintype.card FeatureNames - resolved.card)
decreasing_by
  · simp only [List.length_cons]
    omega
  · have h := addDeps_measure ds resolved rest
    simp only [List.length_cons]
    omega

/-- `resolve_feature_dependencies` from the source: seed the result with
`{BASE} ∪ requested`, then run the breadth-first worklist loop over the
requested features. -/
def resolve_feature_dependencies (requested_features : Option (List FeatureNames)) :
    Finset FeatureNames :=
  match requested_features with
  | none => {FeatureNames.BASE}
  | some l => resolveLoop ({FeatureNames.BASE} ∪ l.toFinset) l

theorem resolveLoop_nil (resolved : Finset FeatureNames) : resolveLoop resolved [] = resolved := by
  rw [resolveLoop]

theorem resolveLoop_cons_none (resolved : Finset FeatureNames) (f : FeatureNames)
    (rest : List FeatureNames) (h : feature_deps f = none) :
    resolveLoop resolved (f :: rest) = resolveLoop resolved rest := by
  rw [resolveLoop, h]

theorem resolveLoop_cons_some (resolved : Finset FeatureNames) (f : FeatureNames)
    (rest ds : List FeatureNames) (h : feature_deps f = some ds) :
    resolveLoop resolved (f :: rest)
      = resolveLoop (addDeps ds resolved rest).1 (addDeps ds resolved rest).2 := by
  rw [resolveLoop, h]

theorem resolveLoop_mono (resolved : Finset FeatureNames) (to_process : List FeatureNames) :
    resolved ⊆ resolveLoop resolved to_process := by
  induction resolved, to_process using resolveLoop.induct with
  | case1 resolved =>
    rw [resolveLoop_nil]
  | case2 resolved f rest hdep ih =>
    rw [resolveLoop_cons_none resolved f rest hdep]
    exact ih
  | case3 resolved f rest ds hdep ih =>
    rw [resolveLoop_cons_some resolved f rest ds hdep]
    exact fun x hx => ih (addDeps_subset ds resolved rest hx)

theorem resolveLoop_subset_closed (C : Set FeatureNames)
    (hC : ∀ x ∈ C, ∀ d ∈ depList x, d ∈ C) (resolved : Finset FeatureNames)
    (to_process : List FeatureNames) :
    (∀ x ∈ resolved, x ∈ C) → (∀ y ∈ to_process, y ∈ C) →
      ∀ x ∈ resolveLoop resolved to_process, x ∈ C := by
  induction resolved, to_process using resolveLoop.induct with
  | case1 resolved =>
    intro hr _ x hx
    exact hr x (by rwa [resolveLoop_nil] at hx)
  | case2 resolved f rest hdep ih =>
    intro hr hq x hx
    rw [resolveLoop_cons_none resolved f rest hdep] at hx
    exact ih hr (fun y hy => hq y (List.mem_cons_of_mem f hy)) x hx
  | case3 resolved f rest ds hdep ih =>
    intro hr hq x hx
    have hf : f ∈ C := hq f (List.mem_cons_self f rest)
    have hds : ∀ d ∈ ds, d ∈ C := by
      intro d hd
      exact hC f hf d (by simp [depList, hdep, hd])
    have hr' : ∀ y ∈ (addDeps ds resolved rest).1, y ∈ C := fun y hy =>
      (addDeps_result_from ds resolved rest y hy).elim (hr y) (hds y)
    have hq' : ∀ y ∈ (addDeps ds resolved rest).2, y ∈ C := fun y hy =>
      (addDeps_queue_from ds resolved rest y hy).elim
        (fun h => hq y (List.mem_cons_of_mem f h)) (hds y)
    rw [resolveLoop_cons_some resolved f rest ds hdep] at hx
    exact ih hr' hq' x hx

/-- The worklist invariant: every resolved feature is either still queued for
processing or already has all its direct dependencies resolved. -/
def LoopInv (resolved : Finset FeatureNames) (to_process : List FeatureNames) : Prop :=
  ∀ x ∈ resolved, x ∈ to_process ∨ ∀ d ∈ depList x, d ∈ resolved

theorem resolveLoop_closed (resolved : Finset FeatureNames) (to_process : List FeatureNames) :
    LoopInv resolved to_process →
      ∀ x ∈ resolveLoop resolved to_process, ∀ d ∈ depList x, d ∈ resolveLoop resolved to_process := by
  induction resolved, to_process using resolveLoop.induct with
  | case1 resolved =>
    intro hinv x hx d hd
    rw [resolveLoop_nil] at hx ⊢
    rcases hinv x hx with h | h
    · cases h
    · exact h d hd
  | case2 resolved f rest hdep ih =>
    intro hinv
    rw [resolveLoop_cons_none resolved f rest hdep]
    refine ih ?_
    intro x hx
    rcases hinv x hx with h | h
    · rcases List.mem_cons.mp h with h' | h'
      · subst h'
        exact Or.inr (by simp [depList, hdep])
      · exact Or.inl h'
    · exact Or.inr h
  | case3 resolved f rest ds hdep ih =>
    intro hinv
    rw [resolveLoop_cons_some resolved f rest ds hdep]
    refine ih ?_
    intro x hx
    rcases addDeps_new_in_queue ds resolved rest x hx with hxr | hxq
    · rcases hinv x hxr with h | h
      · rcases List.mem_cons.mp h with h' | h'
        · subst h'
          refine Or.inr ?_
          intro d hd
          have : d ∈ ds := by simpa [depList, hdep] using hd
          exact addDeps_deps_mem ds resolved rest d this
        · exact Or.inl (addDeps_queue_mono ds resolved rest x h')
      · exact Or.inr fun d hd => addDeps_subset ds resolved rest (h d hd)
    · exact Or.inl hxq

theorem resolveLoop_trans_closed (resolved : Finset FeatureNames)
    (to_process : List FeatureNames) (hinv : LoopInv resolved to_process) :
    ∀ f d, Relation.TransGen dependsOn f d → f ∈ resolveLoop resolved to_process →
      d ∈ resolveLoop resolved to_process := by
  intro f d h
  induction h with
  | single hstep =>
    intro hf
    exact resolveLoop_closed resolved to_process hinv f hf _ hstep
  | tail _ hstep ih =>
    intro hf
    exact resolveLoop_closed resolved to_process hinv _ (ih hf) _ hstep

theorem resolve_some (l : List FeatureNames) :
    resolve_feature_dependencies (some l)
      = resolveLoop ({FeatureNames.BASE} ∪ l.toFinset) l := rfl

theorem seed_inv (l : List FeatureNames) : LoopInv ({FeatureNames.BASE} ∪ l.toFinset) l := by
  intro x hx
  rcases Finset.mem_union.mp hx with hx | hx
  · have hxb : x = FeatureNames.BASE := Finset.mem_singleton.mp hx
    subst hxb
    exact Or.inr (by simp [depList, feature_deps])
  · exact Or.inl (List.mem_toFinset.mp hx)

/-- Claim C1: for every requested feature set, `resolve_feature_dependencies`
contains every transitive dependency of every requested feature (closure
completeness) and contains no identifier besides the baseline, the requested
features and their transitive dependencies (closure minimality). -/
theorem resolve_feature_dependencies_closure (l : List FeatureNames) :
    (∀ f ∈ l, ∀ d, Relation.TransGen dependsOn f d →
        d ∈ resolve_feature_dependencies (some l)) ∧
    (∀ x ∈ resolve_feature_dependencies (some l),
        x = FeatureNames.BASE ∨ x ∈ l ∨ ∃ f ∈ l, Relation.TransGen dependsOn f x) := by
  constructor
  · intro f hf d hfd
    rw [resolve_some]
    have hfres : f ∈ resolveLoop ({FeatureNames.BASE} ∪ l.toFinset) l :=
      resolveLoop_mono _ _ (Finset.mem_union_right _ (List.mem_toFinset.mpr hf))
    exact resolveLoop_trans_closed _ _ (seed_inv l) f d hfd hfres
  · intro x hx
    rw [resolve_some] at hx
    refine resolveLoop_subset_closed
      {y | y = FeatureNames.BASE ∨ y ∈ l ∨ ∃ f ∈ l, Relation.TransGen dependsOn f y}
      ?_ ({FeatureNames.BASE} ∪ l.toFinset) l ?_ ?_ x hx
    · intro y hy d hd
      rcases hy with hy | hy | ⟨f, hf, hfy⟩
      · subst hy
        simp [depList, feature_deps] at hd
      · exact Or.inr (Or.inr ⟨y, hy, Relation.TransGen.single hd⟩)
      · exact Or.inr (Or.inr ⟨f, hf, Relation.TransGen.tail hfy hd⟩)
    · intro y hy
      rcases Finset.mem_union.mp hy with hy | hy
      · exact Or.inl (Finset.mem_singleton.mp hy)
      · exact Or.inr (Or.inl (List.mem_toFinset.mp hy))
    · intro y hy
      exact Or.inr (Or.inl hy)

/-- Witness for C1 at the concrete request `[TEXTUAL]`: `CLI` is a transitive
dependency of `TEXTUAL`, hence resolved. -/
theorem resolve_feature_dependencies_closure_witness :
    FeatureNames.CLI ∈ resolve_feature_dependencies (some [FeatureNames.TEXTUAL]) :=
  (resolve_feature_dependencies_closure [FeatureNames.TEXTUAL]).1 FeatureNames.TEXTUAL
    (List.mem_singleton_self _) FeatureNames.CLI (Relation.TransGen.single (by decide))

/-- Claim C2: the baseline `BASE` is a member of every resolver result, and
resolving `None` or the empty request yields exactly `{BASE}`. -/
theorem resolve_feature_dependencies_base (requested : Option (List FeatureNames)) :
    FeatureNames.BASE ∈ resolve_feature_dependencies requested ∧
    resolve_feature_dependencies none = {FeatureNames.BASE} ∧
    resolve_feature_dependencies (some []) = {FeatureNames.BASE} := by
  refine ⟨?_, rfl, ?_⟩
  · cases requested with
    | none => simp [resolve_feature_dependencies]
    | some l =>
      rw [resolve_some]
      exact resolveLoop_mono _ _ (Finset.mem_union_left _ (Finset.mem_singleton_self _))
  · rw [resolve_some, resolveLoop_nil]
    simp

/-- One step of Python `str.title` (ASCII): an alphabetic character is
uppercased after a non-cased character and lowercased after a cased one;
other characters pass through and reset the word state. -/
def pyTitleAux : Bool → List Char → List Char
  | _, [] => []
  | prevCased, c :: cs =>
    if c.isAlpha then
      (if prevCased then c.toLower else c.toUpper) :: pyTitleAux true cs
    else c :: pyTitleAux false cs

/-- Python `str.title` (ASCII). -/
def pyTitle (s : List Char) : List Char := pyTitleAux false s

/-- Python `str.capitalize` (ASCII): first character uppercased, every
remaining character lowercased. -/
def pyCapitalize : List Char → List Char
  | [] => []
  | c :: cs => c.toUpper :: cs.map Char.toLower

/-- Python `text.split(sep)` for a one-character separator: split at every
occurrence, keeping empty tokens. -/
def splitOnChar (sep : Char) : List Char → List (List Char)
  | [] => [[]]
  | c :: cs =>
    if c = sep then [] :: splitOnChar sep cs
    else
      match splitOnChar sep cs with
      | [] => [[c]]
      | t :: ts => (c :: t) :: ts

/-- Python `text.replace(a, b)` for one-character `a` and `b`: a character map. -/
def mapReplaceChar (a b : Char) (l : List Char) : List Char :=
  l.map fun c => if c = a then b else c

/-- The record returned by `transform_case_variants`. -/
structure CaseVariants where
  snake_case : String
  title_case : String
  kebab_case : String
  pascal_case : String
deriving DecidableEq, Repr

/-- `transform_case_variants` from the source: snake is the input, title is
`text.replace("_", " ").title()`, kebab is `text.replace("_", "-")`, pascal is
`"".join(word.capitalize() for word in text.split("_"))`. -/
def transform_case_variants (text : String) : CaseVariants :=
  { snake_case := text
    title_case := String.mk (pyTitle (mapReplaceChar '_' ' ' text.data))
    kebab_case := String.mk (mapReplaceChar '_' '-' text.data)
    pascal_case := String.mk (((splitOnChar '_' text.data).map pyCapitalize).flatten) }

/-- Claim C3's token transformation, as the claim words it: only the first
character uppercased, the remainder of the token left unchanged. -/
def specPascalToken : List Char → List Char
  | [] => []
  | c :: cs => c.toUpper :: cs

/-- The amended token transformation: first character uppercased, the
remainder lowercased. -/
def specCapToken : List Char → List Char
  | [] => []
  | c :: cs => c.toUpper :: cs.map Char.toLower

/-- Space-separated join of tokens (the claims' reading of the title case). -/
def joinSpaces : List (List Char) → List Char
  | [] => []
  | [t] => t
  | t :: ts => t ++ ' ' :: joinSpaces ts

/-- Counterexample for claim C3: on input "aB" the code's pascal variant is
"Ab" (`str.capitalize` lowercases the remainder), not the claim's "AB"
(remainder unchanged). -/
theorem pascal_case_counterexample :
    (transform_case_variants "aB").pascal_case
      ≠ String.mk (((splitOnChar '_' "aB".data).map specPascalToken).flatten) := by
  decide

theorem pyCapitalize_eq_specCapToken : pyCapitalize = specCapToken := by
  funext t
  cases t <;> rfl

/-- Claim C3 (amended): the pascal variant is the concatenation of the
underscore-split tokens with each token's first character uppercased and the
remainder of the token lowercased. -/
theorem pascal_case_amended (text : String) :
    (transform_case_variants text).pascal_case
      = String.mk (((splitOnChar '_' text.data).map specCapToken).flatten) := by
  show String.mk (((splitOnChar '_' text.data).map pyCapitalize).flatten) = _
  rw [pyCapitalize_eq_specCapToken]

/-- Counterexample for claim C4: on input "a2b" the code's title variant is
"A2B" (`str.title` restarts capitalization after the non-letter "2"), not the
claim's "A2b" (whole remainder of the token lowercased). -/
theorem title_case_counterexample :
    (transform_case_variants "a2b").title_case
      ≠ String.mk (joinSpaces ((splitOnChar '_' "a2b".data).map specCapToken)) := by
  decide

theorem pyTitleAux_cons_alpha_false (c : Char) (cs : List Char) (hc : c.isAlpha = true) :
    pyTitleAux false (c :: cs) = c.toUpper :: pyTitleAux true cs := by
  simp [pyTitleAux, hc]

theorem pyTitleAux_cons_alpha_true (c : Char) (cs : List Char) (hc : c.isAlpha = true) :
    pyTitleAux true (c :: cs) = c.toLower :: pyTitleAux true cs := by
  simp [pyTitleAux, hc]

theorem pyTitleAux_cons_nonalpha (b : Bool) (c : Char) (cs : List Char) (hc : c.isAlpha = false) :
    pyTitleAux b (c :: cs) = c :: pyTitleAux false cs := by
  simp [pyTitleAux, hc]

theorem pyTitleAux_lower_run (cs rest : List Char) (h : ∀ c ∈ cs, c.isAlpha = true) :
    pyTitleAux true (cs ++ rest) = cs.map Char.toLower ++ pyTitleAux true rest := by
  induction cs with
  | nil => rfl
  | cons c cs ih =>
    have hc : c.isAlpha = true := h c (List.mem_cons_self c cs)
    have ih' := ih fun x hx => h x (List.mem_cons_of_mem c hx)
    rw [List.cons_append, pyTitleAux_cons_alpha_true c _ hc, ih', List.map_cons, List.cons_append]

theorem pyTitleAux_space (b : Bool) (rest : List Char) :
    pyTitleAux b (' ' :: rest) = ' ' :: pyTitleAux false rest := by
  cases b <;> rfl

theorem pyTitleAux_token_end (t : List Char) (h : ∀ c ∈ t, c.isAlpha = true) :
    pyTitleAux false t = specCapToken t := by
  cases t with
  | nil => rfl
  | cons c cs =>
    have hc : c.isAlpha = true := h c (List.mem_cons_self c cs)
    have h2 := pyTitleAux_lower_run cs [] fun x hx => h x (List.mem_cons_of_mem c hx)
    rw [List.append_nil] at h2
    rw [pyTitleAux_cons_alpha_false c cs hc, h2]
    show c.toUpper :: (cs.map Char.toLower ++ []) = specCapToken (c :: cs)
    rw [List.append_nil]
    rfl

theorem pyTitleAux_token_sep (t rest : List Char) (h : ∀ c ∈ t, c.isAlpha = true) :
    pyTitleAux false (t ++ ' ' :: rest) = specCapToken t ++ ' ' :: pyTitleAux false rest := by
  cases t with
  | nil => exact pyTitleAux_space false rest
  | cons c cs =>
    have hc : c.isAlpha = true := h c (List.mem_cons_self c cs)
    have h2 := pyTitleAux_lower_run cs (' ' :: rest) fun x hx => h x (List.mem_cons_of_mem c hx)
    rw [List.cons_append, pyTitleAux_cons_alpha_false c _ hc, h2, pyTitleAux_space]
    rfl

theorem pyTitle_joinSpaces (ts : List (List Char))
    (h : ∀ t ∈ ts, ∀ c ∈ t, c.isAlpha = true) :
    pyTitleAux false (joinSpaces ts) = joinSpaces (ts.map specCapToken) := by
  induction ts with
  | nil => rfl
  | cons t ts ih =>
    cases ts with
    | nil =>
      show pyTitleAux false (joinSpaces [t]) = joinSpaces [specCapToken t]
      exact pyTitleAux_token_end t (h t (List.mem_cons_self t []))
    | cons t' ts' =>
      show pyTitleAux false (t ++ ' ' :: joinSpaces (t' :: ts'))
        = specCapToken t ++ ' ' :: joinSpaces ((t' :: ts').map specCapToken)
      rw [pyTitleAux_token_sep t _ (h t (List.mem_cons_self t _))]
      rw [ih fun x hx => h x (List.mem_cons_of_mem t hx)]

theorem splitOnChar_ne_nil (sep : Char) (l : List Char) : splitOnChar sep l ≠ [] := by
  cases l with
  | nil => simp [splitOnChar]
  | cons c cs =>
    by_cases hc : c = sep
    · simp [splitOnChar, hc]
    · simp only [splitOnChar, hc, ite_false]
      cases splitOnChar sep cs <;> simp

theorem joinSpaces_splitOnChar (l : List Char) :
    joinSpaces (splitOnChar '_' l) = mapReplaceChar '_' ' ' l := by
  induction l with
  | nil => rfl
  | cons c cs ih =>
    by_cases hc : c = '_'
    · subst hc
      cases hr : splitOnChar '_' cs with
      | nil => exact absurd hr (splitOnChar_ne_nil '_' cs)
      | cons t ts =>
        have h1 : splitOnChar '_' ('_' :: cs) = [] :: t :: ts := by
          simp [splitOnChar, hr]
        rw [h1]
        show ' ' :: joinSpaces (t :: ts) = mapReplaceChar '_' ' ' ('_' :: cs)
        rw [← hr, ih]
        simp [mapReplaceChar]
    · cases hr : splitOnChar '_' cs with
      | nil => exact absurd hr (splitOnChar_ne_nil '_' cs)
      | cons t ts =>
        have h1 : splitOnChar '_' (c :: cs) = (c :: t) :: ts := by
          simp only [splitOnChar, hc, ite_false, hr]
        rw [h1]
        rw [hr] at ih
        cases ts with
        | nil =>
          show c :: t = mapReplaceChar '_' ' ' (c :: cs)
          have ht : joinSpaces [t] = t := rfl
          rw [ht] at ih
          simp only [mapReplaceChar, List.map_cons, hc, ite_false]
          exact congrArg (List.cons c) ih
        | cons t' ts' =>
          show (c :: t) ++ ' ' :: joinSpaces (t' :: ts') = mapReplaceChar '_' ' ' (c :: cs)
          have hj : joinSpaces (t :: t' :: ts') = t ++ ' ' :: joinSpaces (t' :: ts') := rfl
          rw [hj] at ih
          simp only [mapReplaceChar, List.map_cons, hc, ite_false, List.cons_append]
          exact congrArg (List.cons c) ih

/-- Claim C4 (amended): for inputs whose underscore-delimited tokens consist
only of ASCII letters, the title variant is the input with underscores
replaced by spaces and each token's first character uppercased and remainder
lowercased. -/
theorem title_case_amended (text : String)
    (h : ∀ t ∈ splitOnChar '_' text.data, ∀ c ∈ t, c.isAlpha = true) :
    (transform_case_variants text).title_case
      = String.mk (joinSpaces ((splitOnChar '_' text.data).map specCapToken)) := by
  show String.mk (pyTitle (mapReplaceChar '_' ' ' text.data)) = _
  rw [pyTitle, ← joinSpaces_splitOnChar, pyTitle_joinSpaces _ h]

/-- Witness for the amended claim C4 at input "my_app": the title variant is
"My App". -/
theorem title_case_amended_witness :
    (transform_case_variants "my_app").title_case
      = String.mk (joinSpaces ((splitOnChar '_' "my_app".data).map specCapToken)) :=
  title_case_amended "my_app" (by decide)

/-- Python's substring test `pat in l` (the `in` operator on strings). -/
def containsSub (l pat : List Char) : Bool :=
  if pat.isPrefixOf l then true
  else
    match l with
    | [] => false
    | _ :: cs => containsSub cs pat

def pyReplaceEmpty (rep : List Char) : List Char → List Char
  | [] => rep
  | c :: cs => rep ++ c :: pyReplaceEmpty rep cs

def pyReplaceAux (pat rep : List Char) : Nat → List Char → List Char
  | _, [] => []
  | 0, l => l
  | fuel + 1, c :: cs =>
    if pat.isPrefixOf (c :: cs) ∧ pat ≠ [] then
      rep ++ pyReplaceAux pat rep fuel (cs.drop (pat.length - 1))
    else c :: pyReplaceAux pat rep fuel cs

def pyReplace (s pat rep : List Char) : List Char :=
  if pat.isEmpty then pyReplaceEmpty rep s else pyReplaceAux pat rep s.length s

theorem pyReplaceAux_fuel (pat rep : List Char) (fuel fuel' : Nat) (l : List Char)
    (h : l.length ≤ fuel) (h' : l.length ≤ fuel') :
    pyReplaceAux pat rep fuel l = pyReplaceAux pat rep fuel' l := by
  induction fuel generalizing fuel' l with
  | zero =>
    have hl : l = [] := List.length_eq_zero.mp (Nat.le_zero.mp h)
    subst hl
    cases fuel' <;> rfl
  | succ fuel ih =>
    cases l with
    | nil => cases fuel' <;> rfl
    | cons c cs =>
      have h1 : cs.length ≤ fuel := by simpa using h
      cases fuel' with
      | zero => simp at h'
      | succ fuel' =>
        have h1' : cs.length ≤ fuel' := by simpa using h'
        have hd : (cs.drop (pat.length - 1)).length ≤ cs.length := by
          simp [List.length_drop]
        show pyReplaceAux pat rep (fuel + 1) (c :: cs) = pyReplaceAux pat rep (fuel' + 1) (c :: cs)
        simp only [pyReplaceAux]
        split
        · rw [ih _ _ (Nat.le_trans hd h1) (Nat.le_trans hd h1')]
        · rw [ih _ _ h1 h1']

theorem pyReplace_matched (c : Char) (cs pat rep : List Char)
    (hm : pat.isPrefixOf (c :: cs) = true) (hne : pat ≠ []) :
    pyReplace (c :: cs) pat rep = rep ++ pyReplace ((c :: cs).drop pat.length) pat rep := by
  have hp : ¬(pat.isEmpty = true) := by
    cases pat
    · exact absurd rfl hne
    · simp
  have hd : (c :: cs).drop pat.length = cs.drop (pat.length - 1) := by
    cases pat with
    | nil => exact absurd rfl hne
    | cons p ps => simp
  rw [pyReplace, if_neg hp, pyReplace, if_neg hp, hd]
  show pyReplaceAux pat rep (cs.length + 1) (c :: cs) = _
  simp only [pyReplaceAux]
  rw [if_pos (And.intro hm hne)]
  rw [pyReplaceAux_fuel pat rep cs.length (cs.drop (pat.length - 1)).length _
    (by simp [List.length_drop]) (Nat.le_refl _)]

theorem pyReplace_unmatched (c : Char) (cs pat rep : List Char)
    (hm : pat.isPrefixOf (c :: cs) = false) :
    pyReplace (c :: cs) pat rep = c :: pyReplace cs pat rep := by
  have hne : pat ≠ [] := by
    intro he
    subst he
    simp [List.isPrefixOf] at hm
  have hp : ¬(pat.isEmpty = true) := by
    cases pat
    · exact absurd rfl hne
    · simp
  rw [pyReplace, if_neg hp, pyReplace, if_neg hp]
  show pyReplaceAux pat rep (cs.length + 1) (c :: cs) = _
  simp only [pyReplaceAux]
  rw [if_neg (by simp [hm])]

/-- The per-pattern pass of `replace_in_file`: fold the table in order,
replacing all occurrences of each search key that currently occurs in the
buffer. -/
def applyReplacements (content : List Char) (replacements : List (List Char × List Char)) :
    List Char :=
  replacements.foldl
    (fun updated p => if containsSub updated p.1 then pyReplace updated p.1 p.2 else updated)
    content

/-- The outcome of `replace_in_file` on an existing file: the Python return
value (`None`, modelled as `Unit`), the final buffer, and whether
`write_text` was invoked. -/
structure ReplaceOutcome where
  ret : Unit
  newContent : List Char
  wrote : Bool
deriving DecidableEq, Repr

/-- `replace_in_file` from the source, on the content of an existing regular
file: read the buffer, apply every table entry whose key occurs, write back
only if the final buffer differs from the original, return `None`. -/
def replace_in_file (content : List Char) (replacements : List (List Char × List Char)) :
    ReplaceOutcome :=
  { ret := ()
    newContent := applyReplacements content replacements
    wrote := decide (applyReplacements content replacements ≠ content) }

theorem applyReplacements_noop (content : List Char) (replacements : List (List Char × List Char))
    (h : ∀ p ∈ replacements, containsSub content p.1 = false) :
    applyReplacements content replacements = content := by
  induction replacements with
  | nil => rfl
  | cons p ps ih =>
    have hp : containsSub content p.1 = false := h p (List.mem_cons_self p ps)
    show List.foldl _ (if containsSub content p.1 = true then pyReplace content p.1 p.2 else content) ps = content
    rw [hp]
    simp only [Bool.false_eq_true, if_false]
    exact ih fun q hq => h q (List.mem_cons_of_mem p hq)


/-- Counterexample for claim C6: `replace_in_file` returns Python `None`
(unit), so its return value is identical for a run that changes the content
and one that does not - the return value is not a boolean and indicates
nothing about whether the content changed. -/
theorem replace_in_file_counterexample :
    (replace_in_file "a".data [("a".data, "b".data)]).ret
        = (replace_in_file "a".data []).ret ∧
    (replace_in_file "a".data [("a".data, "b".data)]).newContent ≠ "a".data ∧
    (replace_in_file "a".data []).newContent = "a".data := by
  decide

/-- Claim C6 (amended): `replace_in_file` returns no value (Python `None`);
the change indication is the write-back itself, which is performed exactly
when the replacement pass changed the content. -/
theorem replace_in_file_amended (content : List Char)
    (replacements : List (List Char × List Char)) :
    (replace_in_file content replacements).ret = () ∧
    ((replace_in_file content replacements).wrote = true ↔
      (replace_in_file content replacements).newContent ≠ content) := by
  refine ⟨rfl, ?_⟩
  show decide (applyReplacements content replacements ≠ content) = true ↔ _
  simp [replace_in_file]

/-- Counterexample for claim C7: in the table
`[("ab", "c"), ("X", "a"), ("Y", "b")]` no search key occurs in any
replacement value, yet on content "XY" one pass yields "ab" and a second
pass yields "c" - the pass is not idempotent under the claim's
disjointness precondition. -/
theorem replace_twice_counterexample :
    (∀ p ∈ [("ab".data, "c".data), ("X".data, "a".data), ("Y".data, "b".data)],
      ∀ q ∈ [("ab".data, "c".data), ("X".data, "a".data), ("Y".data, "b".data)],
        containsSub q.2 p.1 = false) ∧
    applyReplacements
        (applyReplacements "XY".data
          [("ab".data, "c".data), ("X".data, "a".data), ("Y".data, "b".data)])
        [("ab".data, "c".data), ("X".data, "a".data), ("Y".data, "b".data)]
      ≠ applyReplacements "XY".data
          [("ab".data, "c".data), ("X".data, "a".data), ("Y".data, "b".data)] := by
  decide

/-- Claim C7 (amended): if after one application of the table none of the
search keys occurs in the result, then applying the table twice produces the
same content as applying it once. -/
theorem replace_idempotent (content : List Char)
    (replacements : List (List Char × List Char))
    (h : ∀ p ∈ replacements,
      containsSub (applyReplacements content replacements) p.1 = false) :
    applyReplacements (applyReplacements content replacements) replacements
      = applyReplacements content replacements :=
  applyReplacements_noop _ _ h

/-- Witness for the amended claim C7 at content "hi" and table `[("i", "o")]`:
one pass gives "ho", in which "i" no longer occurs, and a second pass leaves
it unchanged. -/
theorem replace_idempotent_witness :
    applyReplacements (applyReplacements "hi".data [("i".data, "o".data)])
        [("i".data, "o".data)]
      = applyReplacements "hi".data [("i".data, "o".data)] :=
  replace_idempotent "hi".data [("i".data, "o".data)] (by decide)

/-- Claim C8: if none of the table's search keys occurs in the file content,
`replace_in_file` leaves the content unchanged and performs no write. -/
theorem replace_in_file_noop (content : List Char)
    (replacements : List (List Char × List Char))
    (h : ∀ p ∈ replacements, containsSub content p.1 = false) :
    (replace_in_file content replacements).newContent = content ∧
    (replace_in_file content replacements).wrote = false := by
  have hn := applyReplacements_noop content replacements h
  refine ⟨hn, ?_⟩
  show decide (applyReplacements content replacements ≠ content) = false
  simp [hn]

/-- Witness for claim C8 at content "abc" and table `[("x", "y")]`: "x" does
not occur, so nothing changes and no write happens. -/
theorem replace_in_file_noop_witness :
    (replace_in_file "abc".data [("x".data, "y".data)]).newContent = "abc".data ∧
    (replace_in_file "abc".data [("x".data, "y".data)]).wrote = false :=
  replace_in_file_noop "abc".data [("x".data, "y".data)] (by decide)

/-- `update_env_with_metadata` from the source, on the .env file's content:
for each metadata environment entry in order, append "\nKEY=value" unless the
text "KEY=" already occurs somewhere in the accumulating content. -/
def update_env_with_metadata (content : List Char)
    (environment : List (List Char × List Char)) : List Char :=
  environment.foldl
    (fun c kv =>
      if containsSub c (kv.1 ++ ['=']) then c
      else c ++ '\n' :: (kv.1 ++ '=' :: kv.2))
    content

/-- Whether some newline-delimited line of the content starts with "KEY=";
the linewise notion of the key having a line of its own, used to state claim
C10 (the code does not use it). -/
def hasOwnLine (content key : List Char) : Bool :=
  (splitOnChar '\n' content).any fun line => (key ++ ['=']).isPrefixOf line

/-- Claim C10: the environment projector decides presence of key K by
scanning for the literal substring "K=" anywhere in the file text (first two
conjuncts), and consequently the content "MYKEY=x", in which "KEY=" occurs
only inside another variable's line, is treated as already containing key
"KEY": no line of its own is appended although none starts with "KEY=". -/
theorem update_env_substring_check :
    (∀ (content key value : List Char), containsSub content (key ++ ['=']) = true →
        update_env_with_metadata content [(key, value)] = content) ∧
    (∀ (content key value : List Char), containsSub content (key ++ ['=']) = false →
        update_env_with_metadata content [(key, value)]
          = content ++ '\n' :: (key ++ '=' :: value)) ∧
    containsSub "MYKEY=x".data ("KEY".data ++ ['=']) = true ∧
    hasOwnLine "MYKEY=x".data "KEY".data = false ∧
    update_env_with_metadata "MYKEY=x".data [("KEY".data, "v".data)] = "MYKEY=x".data := by
  refine ⟨?_, ?_, by decide, by decide, by decide⟩
  · intro content key value h
    show (if containsSub content (key ++ ['=']) = true then content
      else content ++ '\n' :: (key ++ '=' :: value)) = content
    rw [if_pos h]
  · intro content key value h
    show (if containsSub content (key ++ ['=']) = true then content
      else content ++ '\n' :: (key ++ '=' :: value)) = _
    rw [if_neg (by simp [h])]

/-- Witness for claim C10: on content "A=1" the key "B" is absent, so its
line is appended. -/
theorem update_env_substring_check_witness :
    update_env_with_metadata "A=1".data [("B".data, "2".data)]
      = "A=1".data ++ '\n' :: ("B".data ++ '=' :: "2".data) :=
  update_env_substring_check.2.1 "A=1".data "B".data "2".data (by decide)

/-- Parsed YAML values, as `yaml.safe_load` produces them. -/
inductive Yaml where
  | nullv
  | boolv (b : Bool)
  | intv (n : Int)
  | strv (s : String)
  | arr (items : List Yaml)
  | obj (entries : List (String × Yaml))

/-- Python dict lookup `d[key]` / `key in d` on a parsed object. -/
def lookupKey (entries : List (String × Yaml)) (key : String) : Option Yaml :=
  match entries with
  | [] => none
  | (k, v) :: rest => if k = key then some v else lookupKey rest key

/-- Python `d.get(key, dflt)`. -/
def pyDictGet (entries : List (String × Yaml)) (key : String) (dflt : Yaml) : Yaml :=
  (lookupKey entries key).getD dflt

/-- The `AuthorInfo` dataclass.  Field values are stored as the parsed YAML
values the Python code stores (it performs no per-field type check). -/
structure AuthorInfo where
  name : Yaml := .strv ""
  email : Yaml := .strv ""
  github_username : Yaml := .strv ""

/-- The `ProjectInfo` dataclass with its source defaults. -/
structure ProjectInfo where
  description : Yaml := .strv ""
  keywords : List Yaml := []
  homepage : Yaml := .strv ""
  repository : Yaml := .strv ""
  documentation : Yaml := .strv ""
  issues : Yaml := .strv ""
  license : Yaml := .strv "MIT"

/-- The `ReadmeBadge` dataclass. -/
structure ReadmeBadge where
  name : Yaml
  url : Yaml
  link : Yaml := .strv ""

/-- The `ReadmeInfo` dataclass. -/
structure ReadmeInfo where
  title : Yaml := .strv ""
  subtitle : Yaml := .strv ""
  description : Yaml := .strv ""
  badges : List ReadmeBadge := []

/-- The `TemplateMetadata` dataclass with its source defaults. -/
structure TemplateMetadata where
  project : ProjectInfo := {}
  author : AuthorInfo := {}
  maintainer : Option AuthorInfo := none
  packages : List Yaml := []
  readme : ReadmeInfo := {}
  pyproject_classifiers : List Yaml := []
  environment : List (String × Yaml) := []
  additional_files : List Yaml := []

/-- The `project` block of `load_metadata_from_yaml`: a present non-object
section aborts; a present-but-non-list `keywords` silently becomes `[]`. -/
def parseProject (d : List (String × Yaml)) : Except String ProjectInfo :=
  match lookupKey d "project" with
  | none => .ok {}
  | some (.obj pd) =>
      .ok { description := pyDictGet pd "description" (.strv "")
            keywords :=
              match lookupKey pd "keywords" with
              | some (.arr l) => l
              | _ => []
            homepage := pyDictGet pd "homepage" (.strv "")
            repository := pyDictGet pd "repository" (.strv "")
            documentation := pyDictGet pd "documentation" (.strv "")
            issues := pyDictGet pd "issues" (.strv "")
            license := pyDictGet pd "license" (.strv "MIT") }
  | some _ => .error "Invalid project section: Expected object"

/-- The `author` block of `load_metadata_from_yaml`. -/
def parseAuthor (d : List (String × Yaml)) : Except String AuthorInfo :=
  match lookupKey d "author" with
  | none => .ok {}
  | some (.obj ad) =>
      .ok { name := pyDictGet ad "name" (.strv "")
            email := pyDictGet ad "email" (.strv "")
            github_username := pyDictGet ad "github_username" (.strv "") }
  | some _ => .error "Invalid author section: Expected object"

/-- The `maintainer` block of `load_metadata_from_yaml` (optional, stored as
`None` when absent). -/
def parseMaintainer (d : List (String × Yaml)) : Except String (Option AuthorInfo) :=
  match lookupKey d "maintainer" with
  | none => .ok none
  | some (.obj md) =>
      .ok (some { name := pyDictGet md "name" (.strv "")
                  email := pyDictGet md "email" (.strv "")
                  github_username := pyDictGet md "github_username" (.strv "") })
  | some _ => .error "Invalid maintainer section: Expected object"

/-- The `packages` block of `load_metadata_from_yaml`. -/
def parsePackages (d : List (String × Yaml)) : Except String (List Yaml) :=
  match lookupKey d "packages" with
  | none => .ok []
  | some (.arr l) => .ok l
  | some _ => .error "Invalid packages section: Expected list"

/-- The `for i, badge_data in enumerate(readme_data["badges"])` loop: each
entry must be an object containing both `name` and `url`, else the load
aborts with a diagnostic naming the entry's index. -/
def parseBadges (i : Nat) : List Yaml → Except String (List ReadmeBadge)
  | [] => .ok []
  | b :: bs =>
    match b with
    | .obj bd =>
        match lookupKey bd "name", lookupKey bd "url" with
        | some nm, some u =>
            (parseBadges (i + 1) bs).map
              (fun rest =>
                { name := nm, url := u, link := pyDictGet bd "link" (.strv "") } :: rest)
        | _, _ =>
            .error ("Badge " ++ toString i ++ " missing required fields: name and url are required")
    | _ => .error ("Invalid badge " ++ toString i ++ ": Expected object")

/-- The `readme` block of `load_metadata_from_yaml`. -/
def parseReadme (d : List (String × Yaml)) : Except String ReadmeInfo :=
  match lookupKey d "readme" with
  | none => .ok {}
  | some (.obj rd) =>
      (match lookupKey rd "badges" with
        | none => Except.ok []
        | some (.arr bs) => parseBadges 0 bs
        | some _ => Except.error "Invalid badges section: Expected list").map
        (fun badges =>
          { title := pyDictGet rd "title" (.strv "")
            subtitle := pyDictGet rd "subtitle" (.strv "")
            description := pyDictGet rd "description" (.strv "")
            badges := badges })
  | some _ => .error "Invalid readme section: Expected object"

/-- The `pyproject` block of `load_metadata_from_yaml`. -/
def parsePyprojectClassifiers (d : List (String × Yaml)) : Except String (List Yaml) :=
  match lookupKey d "pyproject" with
  | none => .ok []
  | some (.obj pp) =>
      match lookupKey pp "classifiers" with
      | none => .ok []
      | some (.arr l) => .ok l
      | some _ => .error "Invalid classifiers section: Expected list"
  | some _ => .error "Invalid pyproject section: Expected object"

/-- The `environment` block of `load_metadata_from_yaml`. -/
def parseEnvironment (d : List (String × Yaml)) : Except String (List (String × Yaml)) :=
  match lookupKey d "environment" with
  | none => .ok []
  | some (.obj m) => .ok m
  | some _ => .error "Invalid environment section: Expected object"

/-- The `additional_files` block of `load_metadata_from_yaml`. -/
def parseAdditionalFiles (d : List (String × Yaml)) : Except String (List Yaml) :=
  match lookupKey d "additional_files" with
  | none => .ok []
  | some (.arr l) => .ok l
  | some _ => .error "Invalid additional_files section: Expected list"

/-- `load_metadata_from_yaml` from the parsed document onward: an empty file
(`None`) becomes `{}`, a non-object document aborts, then the sections are
validated and collected in source order.  `Except.error` models the printed
diagnostic plus `typer.Exit(1)`; an error carries no metadata. -/
def load_metadata_from_yaml (doc : Yaml) : Except String TemplateMetadata := do
  let data ←
    match doc with
    | .nullv => Except.ok []
    | .obj entries => Except.ok entries
    | _ => Except.error "Invalid metadata format: Expected YAML object"
  let project ← parseProject data
  let author ← parseAuthor data
  let maintainer ← parseMaintainer data
  let packages ← parsePackages data
  let readme ← parseReadme data
  let pyproject_classifiers ← parsePyprojectClassifiers data
  let environment ← parseEnvironment data
  let additional_files ← parseAdditionalFiles data
  return { project := project, author := author, maintainer := maintainer,
           packages := packages, readme := readme,
           pyproject_classifiers := pyproject_classifiers,
           environment := environment, additional_files := additional_files }

/-- Whether a load result is a success (metadata returned, no abort). -/
def isOkB {α : Type} (e : Except String α) : Bool :=
  match e with
  | .ok _ => true
  | .error _ => false

/-- Spec-side shape check: the section under `key`, if present, is an object. -/
def sectionObjOk (d : List (String × Yaml)) (key : String) : Bool :=
  match lookupKey d key with
  | none => true
  | some (.obj _) => true
  | some _ => false

/-- Spec-side shape check: the section under `key`, if present, is a list. -/
def sectionArrOk (d : List (String × Yaml)) (key : String) : Bool :=
  match lookupKey d key with
  | none => true
  | some (.arr _) => true
  | some _ => false

/-- Spec-side shape check: a badge entry is an object with `name` and `url`. -/
def badgeOkB : Yaml → Bool
  | .obj bd => (lookupKey bd "name").isSome && (lookupKey bd "url").isSome
  | _ => false

/-- Spec-side shape check: `readme.badges`, if present, is a list of
well-formed badge entries. -/
def badgesOkB (rd : List (String × Yaml)) : Bool :=
  match lookupKey rd "badges" with
  | none => true
  | some (.arr bs) => bs.all badgeOkB
  | some _ => false

/-- Spec-side shape check for the `readme` section. -/
def readmeOkB (d : List (String × Yaml)) : Bool :=
  match lookupKey d "readme" with
  | none => true
  | some (.obj rd) => badgesOkB rd
  | some _ => false

/-- Spec-side shape check for the `pyproject` section. -/
def pyprojectOkB (d : List (String × Yaml)) : Bool :=
  match lookupKey d "pyproject" with
  | none => true
  | some (.obj pp) => sectionArrOk pp "classifiers"
  | some _ => false

/-- Spec-side shape predicate over the whole document: every recognized
nested section that is present has the expected shape.  `project.keywords`
is deliberately not checked - see the counterexample for claim C5. -/
def shapeOkB : Yaml → Bool
  | .nullv => true
  | .obj d =>
      sectionObjOk d "project" && sectionObjOk d "author" && sectionObjOk d "maintainer" &&
      sectionArrOk d "packages" && readmeOkB d && pyprojectOkB d &&
      sectionObjOk d "environment" && sectionArrOk d "additional_files"
  | _ => false

theorem isOkB_map {α β : Type} (f : α → β) (e : Except String α) :
    isOkB (Except.map f e) = isOkB e := by
  cases e <;> rfl

theorem isOkB_eq_true {α : Type} {e : Except String α} (h : isOkB e = true) :
    ∃ a, e = .ok a := by
  cases e with
  | error err => simp [isOkB] at h
  | ok a => exact ⟨a, rfl⟩

theorem parseProject_okB (d : List (String × Yaml)) :
    isOkB (parseProject d) = sectionObjOk d "project" := by
  unfold parseProject sectionObjOk
  cases lookupKey d "project" with
  | none => rfl
  | some v => cases v <;> rfl

theorem parseAuthor_okB (d : List (String × Yaml)) :
    isOkB (parseAuthor d) = sectionObjOk d "author" := by
  unfold parseAuthor sectionObjOk
  cases lookupKey d "author" with
  | none => rfl
  | some v => cases v <;> rfl

theorem parseMaintainer_okB (d : List (String × Yaml)) :
    isOkB (parseMaintainer d) = sectionObjOk d "maintainer" := by
  unfold parseMaintainer sectionObjOk
  cases lookupKey d "maintainer" with
  | none => rfl
  | some v => cases v <;> rfl

theorem parsePackages_okB (d : List (String × Yaml)) :
    isOkB (parsePackages d) = sectionArrOk d "packages" := by
  unfold parsePackages sectionArrOk
  cases lookupKey d "packages" with
  | none => rfl
  | some v => cases v <;> rfl

theorem parseBadges_okB (i : Nat) (bs : List Yaml) :
    isOkB (parseBadges i bs) = bs.all badgeOkB := by
  induction bs generalizing i with
  | nil => rfl
  | cons b bs ih =>
    cases b with
    | obj bd =>
      have hred : parseBadges i (.obj bd :: bs)
          = match lookupKey bd "name", lookupKey bd "url" with
            | some nm, some u =>
              (parseBadges (i + 1) bs).map
                (fun rest =>
                  { name := nm, url := u, link := pyDictGet bd "link" (.strv "") } :: rest)
            | _, _ =>
              .error ("Badge " ++ toString i ++ " missing required fields: name and url are required") := rfl
      rw [hred]
      cases hn : lookupKey bd "name" with
      | none => simp [isOkB, List.all_cons, badgeOkB, hn]
      | some nm =>
        cases hu : lookupKey bd "url" with
        | none => simp [isOkB, List.all_cons, badgeOkB, hn, hu]
        | some u =>
          rw [isOkB_map, ih]
          simp [List.all_cons, badgeOkB, hn, hu]
    | nullv => simp [parseBadges, isOkB, List.all_cons, badgeOkB]
    | boolv v => simp [parseBadges, isOkB, List.all_cons, badgeOkB]
    | intv v => simp [parseBadges, isOkB, List.all_cons, badgeOkB]
    | strv v => simp [parseBadges, isOkB, List.all_cons, badgeOkB]
    | arr l => simp [parseBadges, isOkB, List.all_cons, badgeOkB]

theorem parseReadme_okB (d : List (String × Yaml)) :
    isOkB (parseReadme d) = readmeOkB d := by
  unfold parseReadme readmeOkB
  cases lookupKey d "readme" with
  | none => rfl
  | some v =>
    cases v with
    | obj rd =>
      show isOkB (Except.map _ _) = badgesOkB rd
      rw [isOkB_map]
      unfold badgesOkB
      cases lookupKey rd "badges" with
      | none => rfl
      | some w =>
        cases w with
        | arr bs => exact parseBadges_okB 0 bs
        | nullv => rfl
        | boolv b => rfl
        | intv n => rfl
        | strv s => rfl
        | obj o => rfl
    | nullv => rfl
    | boolv b => rfl
    | intv n => rfl
    | strv s => rfl
    | arr l => rfl

theorem parsePyprojectClassifiers_okB (d : List (String × Yaml)) :
    isOkB (parsePyprojectClassifiers d) = pyprojectOkB d := by
  unfold parsePyprojectClassifiers pyprojectOkB
  cases lookupKey d "pyproject" with
  | none => rfl
  | some v =>
    cases v with
    | obj pp =>
      show isOkB (match lookupKey pp "classifiers" with
          | none => Except.ok []
          | some (.arr l) => Except.ok l
          | some _ => Except.error "Invalid classifiers section: Expected list")
        = sectionArrOk pp "classifiers"
      unfold sectionArrOk
      cases lookupKey pp "classifiers" with
      | none => rfl
      | some w => cases w <;> rfl
    | nullv => rfl
    | boolv b => rfl
    | intv n => rfl
    | strv s => rfl
    | arr l => rfl

theorem parseEnvironment_okB (d : List (String × Yaml)) :
    isOkB (parseEnvironment d) = sectionObjOk d "environment" := by
  unfold parseEnvironment sectionObjOk
  cases lookupKey d "environment" with
  | none => rfl
  | some v => cases v <;> rfl

theorem parseAdditionalFiles_okB (d : List (String × Yaml)) :
    isOkB (parseAdditionalFiles d) = sectionArrOk d "additional_files" := by
  unfold parseAdditionalFiles sectionArrOk
  cases lookupKey d "additional_files" with
  | none => rfl
  | some v => cases v <;> rfl

/-- Claim C5 (amended): the metadata load succeeds if and only if every
recognized present section has the expected shape, where `project.keywords`
is exempt from the check; a mistyped present section (other than
`project.keywords`) aborts the load with an error carrying no metadata. -/
theorem load_metadata_shape (doc : Yaml) :
    isOkB (load_metadata_from_yaml doc) = shapeOkB doc := by
  cases doc with
  | nullv => rfl
  | boolv b => rfl
  | intv n => rfl
  | strv s => rfl
  | arr l => rfl
  | obj d =>
    have hrw : shapeOkB (Yaml.obj d)
        = (isOkB (parseProject d) && isOkB (parseAuthor d) && isOkB (parseMaintainer d) &&
           isOkB (parsePackages d) && isOkB (parseReadme d) &&
           isOkB (parsePyprojectClassifiers d) && isOkB (parseEnvironment d) &&
           isOkB (parseAdditionalFiles d)) := by
      rw [parseProject_okB, parseAuthor_okB, parseMaintainer_okB, parsePackages_okB,
        parseReadme_okB, parsePyprojectClassifiers_okB, parseEnvironment_okB,
        parseAdditionalFiles_okB]
      rfl
    rw [hrw]
    have hload : load_metadata_from_yaml (Yaml.obj d)
        = (parseProject d >>= fun project =>
           parseAuthor d >>= fun author =>
           parseMaintainer d >>= fun maintainer =>
           parsePackages d >>= fun packages =>
           parseReadme d >>= fun readme =>
           parsePyprojectClassifiers d >>= fun pyproject_classifiers =>
           parseEnvironment d >>= fun environment =>
           parseAdditionalFiles d >>= fun additional_files =>
           pure { project := project, author := author, maintainer := maintainer,
                  packages := packages, readme := readme,
                  pyproject_classifiers := pyproject_classifiers,
                  environment := environment,
                  additional_files := additional_files }) := rfl
    rw [hload]
    cases parseProject d with
    | error e => rfl
    | ok p =>
      cases parseAuthor d with
      | error e => rfl
      | ok a =>
        cases parseMaintainer d with
        | error e => rfl
        | ok m =>
          cases parsePackages d with
          | error e => rfl
          | ok pk =>
            cases parseReadme d with
            | error e => rfl
            | ok r =>
              cases parsePyprojectClassifiers d with
              | error e => rfl
              | ok cl =>
                cases parseEnvironment d with
                | error e => rfl
                | ok env =>
                  cases parseAdditionalFiles d with
                  | error e => rfl
                  | ok af => rfl

/-- Counterexample for claim C5: a document whose `project.keywords` is
present but is a string, not a list, does not abort the load - the full
metadata record is returned, with `keywords` silently defaulted to `[]`. -/
theorem keywords_mistyped_counterexample :
    lookupKey [("keywords", Yaml.strv "oops")] "keywords" = some (Yaml.strv "oops") ∧
    load_metadata_from_yaml (.obj [("project", .obj [("keywords", .strv "oops")])])
      = .ok { project := { keywords := [] } } :=
  ⟨rfl, rfl⟩

/-- A badge entry at index `i` that is an object missing `name` or `url`,
with all earlier entries well-formed, makes the badge loop fail with the
diagnostic naming index `k + i` (`k` is the loop's starting index). -/
theorem parseBadges_missing (bs : List Yaml) (i k : Nat) (bd : List (String × Yaml))
    (hprev : ∀ j, j < i → ∃ b, bs[j]? = some b ∧ badgeOkB b = true)
    (hbd : bs[i]? = some (.obj bd))
    (hmiss : lookupKey bd "name" = none ∨ lookupKey bd "url" = none) :
    parseBadges k bs
      = .error ("Badge " ++ toString (k + i)
          ++ " missing required fields: name and url are required") := by
  induction bs generalizing i k with
  | nil => simp at hbd
  | cons b bs ih =>
    cases i with
    | zero =>
      have hb : b = .obj bd := by simpa using hbd
      subst hb
      have hred : parseBadges k (.obj bd :: bs)
          = match lookupKey bd "name", lookupKey bd "url" with
            | some nm, some u =>
              (parseBadges (k + 1) bs).map
                (fun rest =>
                  { name := nm, url := u, link := pyDictGet bd "link" (.strv "") } :: rest)
            | _, _ =>
              .error ("Badge " ++ toString k
                ++ " missing required fields: name and url are required") := rfl
      rw [hred, Nat.add_zero]
      rcases hmiss with hm | hm
      · rw [hm]
        cases lookupKey bd "url" <;> rfl
      · rw [hm]
        cases lookupKey bd "name" <;> rfl
    | succ j =>
      obtain ⟨b0, hb0, hok⟩ := hprev 0 (Nat.succ_pos j)
      have hb0e : b = b0 := by simpa using hb0
      subst hb0e
      cases b with
      | nullv => simp [badgeOkB] at hok
      | boolv v => simp [badgeOkB] at hok
      | intv v => simp [badgeOkB] at hok
      | strv v => simp [badgeOkB] at hok
      | arr l => simp [badgeOkB] at hok
      | obj b1 =>
        have hok' : (lookupKey b1 "name").isSome = true ∧ (lookupKey b1 "url").isSome = true := by
          simpa [badgeOkB] using hok
        obtain ⟨nm, hn⟩ := Option.isSome_iff_exists.mp hok'.1
        obtain ⟨u, hu⟩ := Option.isSome_iff_exists.mp hok'.2
        have hred : parseBadges k (.obj b1 :: bs)
            = match lookupKey b1 "name", lookupKey b1 "url" with
              | some nm, some u =>
                (parseBadges (k + 1) bs).map
                  (fun rest =>
                    { name := nm, url := u, link := pyDictGet b1 "link" (.strv "") } :: rest)
              | _, _ =>
                .error ("Badge " ++ toString k
                  ++ " missing required fields: name and url are required") := rfl
        rw [hred, hn, hu]
        have hbd' : bs[j]? = some (Yaml.obj bd) := by simpa using hbd
        have hprev' : ∀ j', j' < j → ∃ b, bs[j']? = some b ∧ badgeOkB b = true := by
          intro j' hj'
          obtain ⟨b', hb', hok''⟩ := hprev (j' + 1) (Nat.succ_lt_succ hj')
          exact ⟨b', by simpa using hb', hok''⟩
        rw [ih j (k + 1) hprev' hbd']
        have harith : toString (k + 1 + j) = toString (k + (j + 1)) :=
          congrArg toString (by omega)
        rw [harith]
        rfl

/-- Claim C9: in a document whose sections before `readme` are well-shaped
and whose `readme.badges` list has its first offending entry at index `i`
missing the `name` or the `url` field, the metadata load fails with the
diagnostic naming index `i`, and no metadata record is returned. -/
theorem load_metadata_badge_missing (d rd : List (String × Yaml)) (bs : List Yaml)
    (i : Nat) (bd : List (String × Yaml))
    (hproject : sectionObjOk d "project" = true)
    (hauthor : sectionObjOk d "author" = true)
    (hmaint : sectionObjOk d "maintainer" = true)
    (hpack : sectionArrOk d "packages" = true)
    (hrd : lookupKey d "readme" = some (.obj rd))
    (hbs : lookupKey rd "badges" = some (.arr bs))
    (hprev : ∀ j, j < i → ∃ b, bs[j]? = some b ∧ badgeOkB b = true)
    (hbd : bs[i]? = some (.obj bd))
    (hmiss : lookupKey bd "name" = none ∨ lookupKey bd "url" = none) :
    load_metadata_from_yaml (.obj d)
      = .error ("Badge " ++ toString i
          ++ " missing required fields: name and url are required") := by
  obtain ⟨p, hp⟩ := isOkB_eq_true (e := parseProject d) (by rw [parseProject_okB]; exact hproject)
  obtain ⟨a, ha⟩ := isOkB_eq_true (e := parseAuthor d) (by rw [parseAuthor_okB]; exact hauthor)
  obtain ⟨m, hm⟩ := isOkB_eq_true (e := parseMaintainer d) (by rw [parseMaintainer_okB]; exact hmaint)
  obtain ⟨pk, hpk⟩ := isOkB_eq_true (e := parsePackages d) (by rw [parsePackages_okB]; exact hpack)
  have hbadges : parseBadges 0 bs
      = .error ("Badge " ++ toString i
          ++ " missing required fields: name and url are required") := by
    have h0 := parseBadges_missing bs i 0 bd hprev hbd hmiss
    rwa [Nat.zero_add] at h0
  have hreadme : parseReadme d
      = .error ("Badge " ++ toString i
          ++ " missing required fields: name and url are required") := by
    have h1 : parseReadme d
        = (match lookupKey rd "badges" with
            | none => Except.ok []
            | some (.arr bs') => parseBadges 0 bs'
            | some _ => Except.error "Invalid badges section: Expected list").map
            (fun badges =>
              { title := pyDictGet rd "title" (.strv "")
                subtitle := pyDictGet rd "subtitle" (.strv "")
                description := pyDictGet rd "description" (.strv "")
                badges := badges }) := by
      unfold parseReadme
      rw [hrd]
    rw [h1, hbs]
    show (parseBadges 0 bs).map _
      = .error ("Badge " ++ toString i ++ " missing required fields: name and url are required")
    rw [hbadges]
    rfl
  have hload : load_metadata_from_yaml (Yaml.obj d)
      = (parseProject d >>= fun project =>
         parseAuthor d >>= fun author =>
         parseMaintainer d >>= fun maintainer =>
         parsePackages d >>= fun packages =>
         parseReadme d >>= fun readme =>
         parsePyprojectClassifiers d >>= fun pyproject_classifiers =>
         parseEnvironment d >>= fun environment =>
         parseAdditionalFiles d >>= fun additional_files =>
         pure { project := project, author := author, maintainer := maintainer,
                packages := packages, readme := readme,
                pyproject_classifiers := pyproject_classifiers,
                environment := environment,
                additional_files := additional_files }) := rfl
  rw [hload, hp, ha, hm, hpk, hreadme]
  rfl

/-- Witness for claim C9: a document with one badge `{name: b}` (no `url`)
fails with the diagnostic naming index 0. -/
theorem load_metadata_badge_missing_witness :
    load_metadata_from_yaml
        (.obj [("readme", .obj [("badges", .arr [.obj [("name", .strv "b")]])])])
      = .error ("Badge " ++ toString 0
          ++ " missing required fields: name and url are required") :=
  load_metadata_badge_missing
    [("readme", .obj [("badges", .arr [.obj [("name", .strv "b")]])])]
    [("badges", .arr [.obj [("name", .strv "b")]])]
    [.obj [("name", .strv "b")]] 0 [("name", .strv "b")]
    rfl rfl rfl rfl rfl rfl
    (fun j hj => absurd hj (Nat.not_lt_zero j))
    rfl (Or.inr rfl)
